import Mathlib

/-!
# Verification of the n-gram suggestion model (`src/ngrams/n_gram_model.rs`)

Shallow embedding of the Rust `NGramModel`: a whitespace tokenizer, a
training pass that builds unigram / bigram / trigram frequency tables, a
Laplace smoother, and three suggestion operations.

Modelling choices:
* A Rust `String` / `&str` is modelled as a `List Nat` of Unicode code
  points (`Str`).  The helper `str` converts a Lean string literal to this
  representation so that concrete test inputs can be written readably.
* The Unicode-aware character predicates (`char::is_whitespace`,
  `char::is_alphanumeric`) and `str::to_lowercase` are modelled on the
  ASCII fragment of Unicode (the simple one-to-one case mapping), which is
  the fragment all of the repository's test inputs live in.  The analysis
  of tokenizer idempotence additionally uses an extended model
  (`toLowerCharU`, `isAlphanumericCharU`, `tokenizeU`) carrying the
  faithful one-to-many lowercase mapping U+0130 ↦ U+0069 U+0307, on which
  idempotence is refuted.
* A `HashMap` is modelled as an association list in insertion order with
  unique keys (`entry(..).or_insert(0) += 1` becomes `bump`); the source's
  hash-map iteration order is unspecified, and insertion order is one
  admissible instance of it.
* `f64` arithmetic in the Laplace smoother is modelled by exact rational
  arithmetic (`ℚ`); `(x * 1000.0) as usize` on the non-negative scores
  becomes `(x * 1000).floor.toNat`.
* `usize` counts are modelled by `Nat` (counts are bounded by the token
  count of the finite training text, so no wrap-around is reachable).
-/

/-- A Rust string, as its list of Unicode code points. -/
abbrev Str := List Nat

/-- Code points of a string literal (for concrete test inputs). -/
def str (s : String) : Str := s.toList.map Char.toNat

/-- Model of `char::is_whitespace`, restricted to the ASCII whitespace characters. -/
def isWhitespaceChar (c : Nat) : Bool :=
  c = 32 || c = 9 || c = 10 || c = 11 || c = 12 || c = 13

/-- Model of `char::is_alphanumeric`, restricted to the ASCII fragment:
digits `0-9`, uppercase `A-Z`, lowercase `a-z`. -/
def isAlphanumericChar (c : Nat) : Bool :=
  (48 ≤ c && c ≤ 57) || (65 ≤ c && c ≤ 90) || (97 ≤ c && c ≤ 122)

/-- Lowercasing of one character (`str::to_lowercase`), restricted to the
simple ASCII case mapping `A-Z ↦ a-z`. -/
def toLowerChar (c : Nat) : Nat :=
  if 65 ≤ c && c ≤ 90 then c + 32 else c

/-- Accumulator loop of `split_whitespace`: `acc` holds the reversed
characters of the word currently being read. -/
def splitWSGo : Str → Str → List Str
  | acc, [] => if acc = [] then [] else [acc.reverse]
  | acc, c :: rest =>
    if isWhitespaceChar c then
      if acc = [] then splitWSGo [] rest else acc.reverse :: splitWSGo [] rest
    else splitWSGo (c :: acc) rest

/-- Model of `str::split_whitespace`: maximal runs of non-whitespace characters,
in order; empty fragments never occur. -/
def splitWhitespace (s : Str) : List Str := splitWSGo [] s

/-- Model of `str::trim_matches(|c| !c.is_alphanumeric())`: strip non-alphanumeric
characters from both ends. -/
def trimNonAlnum (s : Str) : Str :=
  (((s.dropWhile fun c => !isAlphanumericChar c).reverse.dropWhile
      fun c => !isAlphanumericChar c)).reverse

/-- Model of `NGramModel::tokenize`: split on whitespace, trim non-alphanumeric
characters from both ends of each fragment, lowercase, drop fragments that
became empty. -/
def tokenize (text : Str) : List Str :=
  ((splitWhitespace text).map fun t => (trimNonAlnum t).map toLowerChar).filter
    fun t => !t.isEmpty

/-- Model of `*map.entry(k).or_insert(0) += 1` on an insertion-ordered association
list: increment the entry of `k` if present, otherwise append `(k, 1)`. -/
def bump {κ : Type} [DecidableEq κ] : List (κ × Nat) → κ → List (κ × Nat)
  | [], k => [(k, 1)]
  | (k', v) :: rest, k =>
    if k' = k then (k', v + 1) :: rest else (k', v) :: bump rest k

/-- Model of `map.get(&k).unwrap_or(&0)`: the stored count of `k`, defaulting to 0. -/
def lookupCount {κ : Type} [DecidableEq κ] : List (κ × Nat) → κ → Nat
  | [], _ => 0
  | (k', v) :: rest, k => if k' = k then v else lookupCount rest k

/-- Model of `map.keys()` of the association-list table. -/
def tableKeys {κ : Type} (m : List (κ × Nat)) : List κ := m.map Prod.fst

/-- Model of `.iter().enumerate()` starting at index `i`. -/
def enumerate {α : Type} : Nat → List α → List (Nat × α)
  | _, [] => []
  | i, x :: xs => (i, x) :: enumerate (i + 1) xs

/-- The state threaded through the training loop: the three tables. -/
abbrev TrainState :=
  List (Str × Nat) × List ((Str × Str) × Nat) × List ((Str × Str × Str) × Nat)

/-- One iteration of the `for (i, token) in tokens.iter().enumerate()` loop
of `NGramModel::train`: bump the unigram entry; if `i > 0` bump the bigram
entry for `(tokens[i-1], token)`; if `i > 1` bump the trigram entry for
`(tokens[i-2], tokens[i-1], token)`. -/
def trainStep (tokens : List Str) (st : TrainState) (it : Nat × Str) : TrainState :=
  (bump st.1 it.2,
   if 0 < it.1 then bump st.2.1 (tokens.getD (it.1 - 1) [], it.2) else st.2.1,
   if 1 < it.1 then
     bump st.2.2 (tokens.getD (it.1 - 2) [], tokens.getD (it.1 - 1) [], it.2)
   else st.2.2)

/-- The trained model: the three frequency tables plus the frozen
vocabulary size (`NGramModel` struct). -/
structure NGramModel where
  unigram : List (Str × Nat)
  bigram : List ((Str × Str) × Nat)
  trigram : List ((Str × Str × Str) × Nat)
  vocab_count : Nat
deriving DecidableEq

/-- Model of `NGramModel::train`: tokenize, walk the tokens once building the three
tables, then freeze `vocab_count = unigram.keys().len()`. -/
def train (text : Str) : NGramModel :=
  let tokens := tokenize text
  let st := (enumerate 0 tokens).foldl (trainStep tokens) ([], [], [])
  { unigram := st.1, bigram := st.2.1, trigram := st.2.2,
    vocab_count := (tableKeys st.1).length }

/-- Model of `NGramModel::smooth_with_laplace`: for every `prev_word` in the unigram
table, add `(bigram(prev_word, current) + 1) / (unigram(prev_word) + V)`;
`f64` modelled by `ℚ`. -/
def smooth_with_laplace (m : NGramModel) (current : Str) : ℚ :=
  m.unigram.foldl
    (fun total e =>
      total +
        ((lookupCount m.bigram (e.1, current) : ℚ) + 1) /
          ((lookupCount m.unigram e.1 : ℚ) + (m.vocab_count : ℚ)))
    0

/-- Stable insertion (descending by the second component) used to model
Rust's stable `sort_by(|a, b| b.1.cmp(&a.1))`. -/
def insertDesc {α β : Type} [LinearOrder β] (x : α × β) :
    List (α × β) → List (α × β)
  | [] => [x]
  | y :: ys => if y.2 ≤ x.2 then x :: y :: ys else y :: insertDesc x ys

/-- Stable sort, descending by the second component; the head of the result
is the element Rust's `candidates.first()` sees after its stable
descending sort. -/
def sortByValDesc {α β : Type} [LinearOrder β] : List (α × β) → List (α × β)
  | [] => []
  | x :: xs => insertDesc x (sortByValDesc xs)

/-- Model of `NGramModel::suggest_unigram`: lowercase the input, take the last
whitespace-delimited fragment as prefix, keep the unigram entries whose key
starts with it, sort by count descending, return the first (or `("", 0)`). -/
def suggest_unigram (m : NGramModel) (input : Str) : Str × Nat :=
  let inputLast : Str := (splitWhitespace (input.map toLowerChar)).getLastD []
  let candidates := m.unigram.filter fun e => inputLast.isPrefixOf e.1
  (sortByValDesc candidates).headD ([], 0)

/-- Model of `NGramModel::suggest_bigram`: if the input tokenizes to nothing return
`("", 0)`; otherwise score every vocabulary word with the Laplace smoother
(the extracted last input token is never used), sort descending, and return
the best word with its score scaled by 1000 and truncated. -/
def suggest_bigram (m : NGramModel) (input : Str) : Str × Nat :=
  let tokenized_input := tokenize input
  if tokenized_input.length < 1 then ([], 0)
  else
    let _current_word := tokenized_input.getLastD []
    let candidates : List (Str × ℚ) :=
      (tableKeys m.unigram).map fun word => (word, smooth_with_laplace m word)
    match (sortByValDesc candidates).head? with
    | some wp => (wp.1, (wp.2 * 1000).floor.toNat)
    | none => ([], 0)

/-- Model of `NGramModel::suggest_trigram`: if the input tokenizes to fewer than two
tokens return `("", 0)`; otherwise with `current` the last and `previous`
the second-to-last input token, keep the trigram entries whose first
component is `previous` and second component is `current`, and return the
third component with the highest count (or `("", 0)`). -/
def suggest_trigram (m : NGramModel) (input : Str) : Str × Nat :=
  let tokenized_input := tokenize input
  if tokenized_input.length < 2 then ([], 0)
  else
    let current : Str := tokenized_input.getD (tokenized_input.length - 1) []
    let previous : Str := tokenized_input.getD (tokenized_input.length - 2) []
    let candidates : List (Str × Nat) :=
      (m.trigram.filter fun e =>
          decide (e.1.1 = previous) && decide (e.1.2.1 = current)).map
        fun e => (e.1.2.2, e.2)
    (sortByValDesc candidates).headD ([], 0)

/-- The ordered adjacent pairs `(token[i-1], token[i])` of a sequence. -/
def adjPairs : List Str → List (Str × Str)
  | a :: b :: rest => (a, b) :: adjPairs (b :: rest)
  | _ => []

/-- The ordered adjacent triples `(token[i-2], token[i-1], token[i])`. -/
def adjTriples : List Str → List (Str × Str × Str)
  | a :: b :: c :: rest => (a, b, c) :: adjTriples (b :: c :: rest)
  | _ => []

/-- Number of occurrences of `a` in a list. -/
def countOcc {α : Type} [DecidableEq α] (a : α) : List α → Nat
  | [] => 0
  | b :: l => (if b = a then 1 else 0) + countOcc a l

/-- Number of list elements satisfying `p`. -/
def countBy {α : Type} (p : α → Bool) : List α → Nat
  | [] => 0
  | b :: l => (if p b then 1 else 0) + countBy p l

/-- Sum of the stored counts over the entries whose key satisfies `p`. -/
def sumValuesP {κ : Type} (p : κ → Bool) : List (κ × Nat) → Nat
  | [] => 0
  | e :: rest => (if p e.1 then e.2 else 0) + sumValuesP p rest

/-- Frequency table of a list of keys: bump once per element, in order.
The training tables are proved equal to `buildTable` of the token list,
its adjacent pairs, and its adjacent triples respectively. -/
def buildTable {κ : Type} [DecidableEq κ] (L : List κ) : List (κ × Nat) :=
  L.foldl bump []

/-- Joining tokens back into one string with single spaces (code point 32),
as in the spec's idempotence property. -/
def joinSpaces : List Str → Str
  | [] => []
  | [t] => t
  | t :: ts => t ++ 32 :: joinSpaces ts

/-- Variant of `suggest_bigram` with the panicking sites made explicit: the
`tokenized_input.last().unwrap()` is modelled as an `Option.bind`, so the
result is `none` exactly when the Rust code would panic. -/
def suggest_bigramChk (m : NGramModel) (input : Str) : Option (Str × Nat) :=
  let tokenized_input := tokenize input
  if tokenized_input.length < 1 then some ([], 0)
  else
    match tokenized_input.getLast? with
    | none => none
    | some _current_word =>
      some (
        let candidates : List (Str × ℚ) :=
          (tableKeys m.unigram).map fun word => (word, smooth_with_laplace m word)
        match (sortByValDesc candidates).head? with
        | some wp => (wp.1, (wp.2 * 1000).floor.toNat)
        | none => ([], 0))

/-- Variant of `suggest_trigram` with the panicking sites made explicit: the two index
accesses `tokenized_input[len - 1]` and `tokenized_input[len - 2]` are
modelled with `get?`, so the result is `none` exactly when the Rust code
would panic on an out-of-bounds index. -/
def suggest_trigramChk (m : NGramModel) (input : Str) : Option (Str × Nat) :=
  let tokenized_input := tokenize input
  if tokenized_input.length < 2 then some ([], 0)
  else
    match tokenized_input.get? (tokenized_input.length - 1),
        tokenized_input.get? (tokenized_input.length - 2) with
    | some current, some previous =>
      let candidates : List (Str × Nat) :=
        (m.trigram.filter fun e =>
            decide (e.1.1 = previous) && decide (e.1.2.1 = current)).map
          fun e => (e.1.2.2, e.2)
      some ((sortByValDesc candidates).headD ([], 0))
    | _, _ => none

/-- Model of `str::to_lowercase` at one character with the faithful
one-to-many Unicode lowercase mapping, on the fragment needed below: ASCII
letters map one-to-one as in `toLowerChar`, and LATIN CAPITAL LETTER I WITH
DOT ABOVE (U+0130, code point 304) maps to the two-character sequence of
"i" (105) followed by COMBINING DOT ABOVE (U+0307, code point 775); other
characters map to themselves. -/
def toLowerCharU (c : Nat) : List Nat :=
  if c = 304 then [105, 775] else [toLowerChar c]

/-- Model of `char::is_alphanumeric` on the extended fragment: the ASCII
alphanumerics together with U+0130, which is alphabetic; U+0307 is a
combining mark, hence not alphanumeric. -/
def isAlphanumericCharU (c : Nat) : Bool :=
  isAlphanumericChar c || c = 304

/-- Model of `str::trim_matches(|c| !c.is_alphanumeric())` over the
extended character fragment. -/
def trimNonAlnumU (s : Str) : Str :=
  (((s.dropWhile fun c => !isAlphanumericCharU c).reverse.dropWhile
      fun c => !isAlphanumericCharU c)).reverse

/-- Model of `NGramModel::tokenize` over the extended character fragment
with the faithful one-to-many lowercasing: split on whitespace (no
additional whitespace characters occur in this fragment), trim
non-alphanumeric characters from both ends, lowercase character-wise by
concatenation, drop fragments that became empty.  On texts made of ASCII
characters it coincides with `tokenize`. -/
def tokenizeU (text : Str) : List Str :=
  ((splitWhitespace text).map
      fun t => (trimNonAlnumU t).flatMap toLowerCharU).filter
    fun t => !t.isEmpty

theorem mem_insertDesc {α β : Type} [LinearOrder β] (x y : α × β)
    (l : List (α × β)) : y ∈ insertDesc x l ↔ y = x ∨ y ∈ l := by
  induction l with
  | nil => simp [insertDesc]
  | cons z zs ih =>
    simp only [insertDesc]
    split
    · simp
    · simp only [List.mem_cons, ih]
      tauto

theorem pairwise_insertDesc {α β : Type} [LinearOrder β] (x : α × β)
    (l : List (α × β)) (h : l.Pairwise fun a b => b.2 ≤ a.2) :
    (insertDesc x l).Pairwise fun a b => b.2 ≤ a.2 := by
  induction l with
  | nil => simp [insertDesc]
  | cons z zs ih =>
    rcases List.pairwise_cons.mp h with ⟨hz, hzs⟩
    simp only [insertDesc]
    split
    · refine List.pairwise_cons.mpr ⟨?_, h⟩
      intro b hb
      rcases List.mem_cons.mp hb with rfl | hb
      · assumption
      · exact le_trans (hz b hb) (by assumption)
    · refine List.pairwise_cons.mpr ⟨?_, ih hzs⟩
      intro b hb
      rcases (mem_insertDesc x b zs).mp hb with rfl | hb
      · exact le_of_not_le (by assumption)
      · exact hz b hb

theorem mem_sortByValDesc {α β : Type} [LinearOrder β] (y : α × β)
    (l : List (α × β)) : y ∈ sortByValDesc l ↔ y ∈ l := by
  induction l with
  | nil => simp [sortByValDesc]
  | cons z zs ih => simp [sortByValDesc, mem_insertDesc, ih]

theorem pairwise_sortByValDesc {α β : Type} [LinearOrder β]
    (l : List (α × β)) :
    (sortByValDesc l).Pairwise fun a b => b.2 ≤ a.2 := by
  induction l with
  | nil => simp [sortByValDesc]
  | cons z zs ih => exact pairwise_insertDesc z (sortByValDesc zs) ih

theorem sortByValDesc_eq_nil {α β : Type} [LinearOrder β]
    (l : List (α × β)) : sortByValDesc l = [] ↔ l = [] := by
  cases l with
  | nil => simp [sortByValDesc]
  | cons z zs =>
    simp only [sortByValDesc]
    constructor
    · intro h
      have : z ∈ insertDesc z (sortByValDesc zs) := by
        rw [mem_insertDesc]; exact Or.inl rfl
      rw [h] at this
      simp at this
    · intro h
      simp at h

theorem sortByValDesc_head_max {α β : Type} [LinearOrder β]
    {l : List (α × β)} {c : α × β} {t : List (α × β)}
    (h : sortByValDesc l = c :: t) : c ∈ l ∧ ∀ y ∈ l, y.2 ≤ c.2 := by
  have hmemc : c ∈ l := by
    rw [← mem_sortByValDesc c l, h]; exact List.mem_cons_self c t
  refine ⟨hmemc, fun y hy => ?_⟩
  have hy' : y ∈ c :: t := by rw [← h, mem_sortByValDesc]; exact hy
  rcases List.mem_cons.mp hy' with rfl | hy'
  · exact le_refl _
  · have hp := pairwise_sortByValDesc l
    rw [h] at hp
    exact (List.pairwise_cons.mp hp).1 y hy'

theorem lookupCount_bump_self {κ : Type} [DecidableEq κ]
    (m : List (κ × Nat)) (k : κ) :
    lookupCount (bump m k) k = lookupCount m k + 1 := by
  induction m with
  | nil => simp [bump, lookupCount]
  | cons e rest ih =>
    obtain ⟨k', v⟩ := e
    by_cases h : k' = k <;> simp [bump, lookupCount, h, ih]

theorem lookupCount_bump_ne {κ : Type} [DecidableEq κ]
    (m : List (κ × Nat)) (k k' : κ) (hne : k' ≠ k) :
    lookupCount (bump m k) k' = lookupCount m k' := by
  induction m with
  | nil => simp [bump, lookupCount, Ne.symm hne]
  | cons e rest ih =>
    obtain ⟨a, v⟩ := e
    by_cases h : a = k <;> by_cases h2 : a = k' <;>
      simp_all [bump, lookupCount]

theorem mem_tableKeys_bump {κ : Type} [DecidableEq κ]
    (m : List (κ × Nat)) (k k' : κ) :
    k' ∈ tableKeys (bump m k) ↔ k' ∈ tableKeys m ∨ k' = k := by
  induction m with
  | nil => simp [bump, tableKeys]
  | cons e rest ih =>
    obtain ⟨a, v⟩ := e
    by_cases h : a = k <;> simp_all [bump, tableKeys] <;> tauto

theorem nodup_tableKeys_bump {κ : Type} [DecidableEq κ]
    (m : List (κ × Nat)) (k : κ) (h : (tableKeys m).Nodup) :
    (tableKeys (bump m k)).Nodup := by
  induction m with
  | nil => simp [bump, tableKeys]
  | cons e rest ih =>
    obtain ⟨a, v⟩ := e
    simp only [tableKeys, List.map_cons, List.nodup_cons] at h
    by_cases hak : a = k
    · simpa [bump, hak, tableKeys, List.nodup_cons] using h
    · simp only [bump, if_neg hak, tableKeys, List.map_cons, List.nodup_cons]
      refine ⟨fun hmem => ?_, ih h.2⟩
      rcases (mem_tableKeys_bump rest k a).mp hmem with hmem | rfl
      · exact h.1 hmem
      · exact hak rfl

theorem sumValuesP_bump {κ : Type} [DecidableEq κ] (p : κ → Bool)
    (m : List (κ × Nat)) (k : κ) :
    sumValuesP p (bump m k) = sumValuesP p m + (if p k then 1 else 0) := by
  induction m with
  | nil => by_cases hp : p k <;> simp [bump, sumValuesP, hp]
  | cons e rest ih =>
    obtain ⟨a, v⟩ := e
    by_cases h : a = k
    · subst h
      by_cases hp : p a = true <;> simp [bump, sumValuesP, hp] <;> omega
    · by_cases hp : p a = true <;> simp [bump, sumValuesP, h, hp, ih] <;> omega

theorem lookupCount_foldl_bump {κ : Type} [DecidableEq κ] (L : List κ) :
    ∀ (m : List (κ × Nat)) (k : κ),
      lookupCount (L.foldl bump m) k = lookupCount m k + countOcc k L := by
  induction L with
  | nil => simp [countOcc]
  | cons a L ih =>
    intro m k
    simp only [List.foldl_cons, countOcc, ih]
    by_cases h : a = k
    · subst h
      rw [lookupCount_bump_self]
      simp
      omega
    · rw [lookupCount_bump_ne m a k (fun hh => h hh.symm)]
      simp [h]

theorem mem_tableKeys_foldl_bump {κ : Type} [DecidableEq κ] (L : List κ) :
    ∀ (m : List (κ × Nat)) (k : κ),
      k ∈ tableKeys (L.foldl bump m) ↔ k ∈ tableKeys m ∨ k ∈ L := by
  induction L with
  | nil => simp
  | cons a L ih =>
    intro m k
    simp only [List.foldl_cons, ih, mem_tableKeys_bump, List.mem_cons]
    tauto

theorem nodup_tableKeys_foldl_bump {κ : Type} [DecidableEq κ] (L : List κ) :
    ∀ (m : List (κ × Nat)), (tableKeys m).Nodup →
      (tableKeys (L.foldl bump m)).Nodup := by
  induction L with
  | nil => simpa using fun m h => h
  | cons a L ih =>
    intro m h
    exact ih (bump m a) (nodup_tableKeys_bump m a h)

theorem sumValuesP_foldl_bump {κ : Type} [DecidableEq κ] (p : κ → Bool)
    (L : List κ) : ∀ (m : List (κ × Nat)),
      sumValuesP p (L.foldl bump m) = sumValuesP p m + countBy p L := by
  induction L with
  | nil => simp [countBy]
  | cons a L ih =>
    intro m
    simp only [List.foldl_cons, countBy, ih, sumValuesP_bump]
    omega

theorem lookupCount_buildTable {κ : Type} [DecidableEq κ] (L : List κ)
    (k : κ) : lookupCount (buildTable L) k = countOcc k L := by
  simp [buildTable, lookupCount_foldl_bump, lookupCount]

theorem mem_tableKeys_buildTable {κ : Type} [DecidableEq κ] (L : List κ)
    (k : κ) : k ∈ tableKeys (buildTable L) ↔ k ∈ L := by
  rw [buildTable, mem_tableKeys_foldl_bump]
  simp [tableKeys]

theorem nodup_tableKeys_buildTable {κ : Type} [DecidableEq κ] (L : List κ) :
    (tableKeys (buildTable L)).Nodup := by
  exact nodup_tableKeys_foldl_bump L [] (by simp [tableKeys])

theorem sumValuesP_buildTable {κ : Type} [DecidableEq κ] (p : κ → Bool)
    (L : List κ) : sumValuesP p (buildTable L) = countBy p L := by
  simp [buildTable, sumValuesP_foldl_bump, sumValuesP]

theorem mem_tableKeys_of_mem {κ : Type} {m : List (κ × Nat)} {k : κ}
    {v : Nat} (h : (k, v) ∈ m) : k ∈ tableKeys m := by
  simp only [tableKeys, List.mem_map]
  exact ⟨(k, v), h, rfl⟩

theorem lookupCount_eq_of_mem {κ : Type} [DecidableEq κ] :
    ∀ (m : List (κ × Nat)), (tableKeys m).Nodup →
      ∀ (k : κ) (v : Nat), (k, v) ∈ m → lookupCount m k = v := by
  intro m
  induction m with
  | nil => simp
  | cons e rest ih =>
    intro hnd k v hmem
    obtain ⟨a, w⟩ := e
    rw [tableKeys, List.map_cons, List.nodup_cons] at hnd
    rcases List.mem_cons.mp hmem with heq | hmem
    · injection heq with h1 h2
      subst h1; subst h2
      simp [lookupCount]
    · have hk : k ∈ tableKeys rest := mem_tableKeys_of_mem hmem
      have hak : a ≠ k := fun h => hnd.1 (h ▸ hk)
      rw [lookupCount, if_neg hak]
      exact ih hnd.2 k v hmem

theorem mem_of_mem_tableKeys {κ : Type} [DecidableEq κ] :
    ∀ (m : List (κ × Nat)) (k : κ), k ∈ tableKeys m →
      (k, lookupCount m k) ∈ m := by
  intro m
  induction m with
  | nil => simp [tableKeys]
  | cons e rest ih =>
    intro k hk
    obtain ⟨a, w⟩ := e
    by_cases h : a = k
    · subst h
      simp [lookupCount]
    · rw [tableKeys, List.map_cons, List.mem_cons] at hk
      rcases hk with hk | hk
      · exact absurd hk.symm h
      · rw [lookupCount, if_neg h]
        exact List.mem_cons_of_mem _ (ih k hk)

theorem enumerate_append_singleton {α : Type} (l : List α) :
    ∀ (i : Nat) (x : α),
      enumerate i (l ++ [x]) = enumerate i l ++ [(i + l.length, x)] := by
  induction l with
  | nil => intro i x; simp [enumerate]
  | cons a t ih =>
    intro i x
    have h1 : enumerate i ((a :: t) ++ [x]) = (i, a) :: enumerate (i + 1) (t ++ [x]) := rfl
    have h2 : enumerate i (a :: t) = (i, a) :: enumerate (i + 1) t := rfl
    rw [h1, h2, ih (i + 1) x]
    simp only [List.cons_append, List.length_cons]
    have h : i + 1 + t.length = i + (t.length + 1) := by omega
    rw [h]

theorem mem_enumerate_lt {α : Type} (l : List α) :
    ∀ (i : Nat) (p : Nat × α), p ∈ enumerate i l → p.1 < i + l.length := by
  induction l with
  | nil => intro i p h; simp [enumerate] at h
  | cons a t ih =>
    intro i p h
    simp only [enumerate, List.mem_cons] at h
    rcases h with rfl | h
    · simp only [List.length_cons]
      omega
    · have := ih (i + 1) p h
      simp only [List.length_cons]
      omega

theorem adjPairs_append_singleton :
    ∀ (l : List Str) (x : Str),
      adjPairs (l ++ [x]) =
        adjPairs l ++
          (if l.length = 0 then [] else [(l.getD (l.length - 1) [], x)]) := by
  intro l
  induction l with
  | nil => intro x; simp [adjPairs]
  | cons a t ih =>
    intro x
    cases t with
    | nil => simp [adjPairs]
    | cons b t2 =>
      have h1 : (a :: b :: t2) ++ [x] = a :: ((b :: t2) ++ [x]) := rfl
      have h2 : adjPairs (a :: ((b :: t2) ++ [x])) =
          (a, b) :: adjPairs ((b :: t2) ++ [x]) := rfl
      rw [h1, h2, ih x]
      simp [adjPairs, List.getD_cons_succ]

theorem adjTriples_append_singleton :
    ∀ (l : List Str) (x : Str),
      adjTriples (l ++ [x]) =
        adjTriples l ++
          (if l.length ≤ 1 then []
           else [(l.getD (l.length - 2) [], l.getD (l.length - 1) [], x)]) := by
  intro l
  induction l with
  | nil => intro x; simp [adjTriples]
  | cons a t ih =>
    intro x
    cases t with
    | nil => simp [adjTriples]
    | cons b t2 =>
      cases t2 with
      | nil => simp [adjTriples]
      | cons c t3 =>
        have h1 : (a :: b :: c :: t3) ++ [x] = a :: ((b :: c :: t3) ++ [x]) := rfl
        have h2 : adjTriples (a :: ((b :: c :: t3) ++ [x])) =
            (a, b, c) :: adjTriples ((b :: c :: t3) ++ [x]) := rfl
        rw [h1, h2, ih x]
        simp [adjTriples, List.getD_cons_succ]
        rw [List.getElem?_eq_getElem (by simp; omega)]
        rfl

theorem buildTable_append_singleton {κ : Type} [DecidableEq κ] (L : List κ)
    (k : κ) : buildTable (L ++ [k]) = bump (buildTable L) k := by
  simp [buildTable, List.foldl_append]

theorem trainTables_spec (tokens : List Str) :
    (enumerate 0 tokens).foldl (trainStep tokens) ([], [], []) =
      (buildTable tokens, buildTable (adjPairs tokens),
        buildTable (adjTriples tokens)) := by
  induction tokens using List.reverseRecOn with
  | nil => rfl
  | append_singleton l x ih =>
    have hcongr :
        (enumerate 0 l).foldl (trainStep (l ++ [x])) (([], [], []) : TrainState) =
          (enumerate 0 l).foldl (trainStep l) ([], [], []) := by
      apply List.foldl_ext
      intro st p hp
      have hlt : p.1 < l.length := by
        have h := mem_enumerate_lt l 0 p hp
        omega
      obtain ⟨i, tok⟩ := p
      simp only at hlt
      simp only [trainStep,
        List.getD_append l [x] [] (i - 1) (by omega),
        List.getD_append l [x] [] (i - 2) (by omega)]
    rw [enumerate_append_singleton l 0 x, List.foldl_append, hcongr, ih]
    simp only [List.foldl_cons, List.foldl_nil, Nat.zero_add]
    rw [adjPairs_append_singleton l x, adjTriples_append_singleton l x]
    rcases Nat.lt_or_ge l.length 1 with h0 | h0
    · have hl : l = [] := List.length_eq_zero.mp (by omega)
      subst hl
      simp [trainStep, buildTable_append_singleton, buildTable, adjPairs,
        adjTriples]
    · rcases Nat.lt_or_ge l.length 2 with h1 | h1
      · simp only [trainStep, List.getD_append l [x] [] (l.length - 1) (by omega),
          if_pos (show 0 < l.length by omega),
          if_neg (show ¬ 1 < l.length by omega),
          if_neg (show ¬ l.length = 0 by omega),
          if_pos (show l.length ≤ 1 by omega)]
        rw [buildTable_append_singleton, buildTable_append_singleton,
          List.append_nil]
      · simp only [trainStep, List.getD_append l [x] [] (l.length - 1) (by omega),
          List.getD_append l [x] [] (l.length - 2) (by omega),
          if_pos (show 0 < l.length by omega),
          if_pos (show 1 < l.length by omega),
          if_neg (show ¬ l.length = 0 by omega),
          if_neg (show ¬ l.length ≤ 1 by omega)]
        rw [buildTable_append_singleton, buildTable_append_singleton,
          buildTable_append_singleton]

theorem train_unigram_eq (text : Str) :
    (train text).unigram = buildTable (tokenize text) := by
  simp only [train, trainTables_spec]

theorem train_bigram_eq (text : Str) :
    (train text).bigram = buildTable (adjPairs (tokenize text)) := by
  simp only [train, trainTables_spec]

theorem train_trigram_eq (text : Str) :
    (train text).trigram = buildTable (adjTriples (tokenize text)) := by
  simp only [train, trainTables_spec]

theorem train_vocab_eq (text : Str) :
    (train text).vocab_count =
      (tableKeys (buildTable (tokenize text))).length := by
  simp only [train, trainTables_spec]

theorem toLowerChar_idem (c : Nat) :
    toLowerChar (toLowerChar c) = toLowerChar c := by
  by_cases h : 65 ≤ c ∧ c ≤ 90
  · have h1 : toLowerChar c = c + 32 := by simp [toLowerChar, h.1, h.2]
    have h2 : toLowerChar (c + 32) = c + 32 := by
      simp only [toLowerChar]
      rw [if_neg (by simp; omega)]
    rw [h1, h2]
  · have h1 : toLowerChar c = c := by
      simp only [toLowerChar]
      rw [if_neg (by simpa using h)]
    rw [h1, h1]

theorem isAlnum_toLowerChar (c : Nat) :
    isAlphanumericChar (toLowerChar c) = isAlphanumericChar c := by
  by_cases h : 65 ≤ c ∧ c ≤ 90
  · have h1 : toLowerChar c = c + 32 := by simp [toLowerChar, h.1, h.2]
    rw [h1]
    have e1 : isAlphanumericChar (c + 32) = true := by
      simp [isAlphanumericChar]
      omega
    have e2 : isAlphanumericChar c = true := by
      simp [isAlphanumericChar]
      omega
    rw [e1, e2]
  · have h1 : toLowerChar c = c := by
      simp only [toLowerChar]
      rw [if_neg (by simpa using h)]
    rw [h1]

theorem isWs_toLowerChar (c : Nat) :
    isWhitespaceChar (toLowerChar c) = isWhitespaceChar c := by
  by_cases h : 65 ≤ c ∧ c ≤ 90
  · have h1 : toLowerChar c = c + 32 := by simp [toLowerChar, h.1, h.2]
    rw [h1]
    have e1 : isWhitespaceChar (c + 32) = false := by
      simp [isWhitespaceChar]
      omega
    have e2 : isWhitespaceChar c = false := by
      simp [isWhitespaceChar]
      omega
    rw [e1, e2]
  · have h1 : toLowerChar c = c := by
      simp only [toLowerChar]
      rw [if_neg (by simpa using h)]
    rw [h1]

theorem splitWSGo_all (s : Str) : ∀ (acc : Str),
    (∀ c ∈ acc, isWhitespaceChar c = false) →
    ∀ t ∈ splitWSGo acc s, t ≠ [] ∧ ∀ c ∈ t, isWhitespaceChar c = false := by
  induction s with
  | nil =>
    intro acc hacc t ht
    simp only [splitWSGo] at ht
    split at ht
    · simp at ht
    · rename_i hne
      simp only [List.mem_singleton] at ht
      subst ht
      refine ⟨by simpa using hne, fun c hc => hacc c (List.mem_reverse.mp hc)⟩
  | cons c0 rest ih =>
    intro acc hacc t ht
    simp only [splitWSGo] at ht
    by_cases hw : isWhitespaceChar c0
    · rw [if_pos hw] at ht
      by_cases ha : acc = []
      · rw [if_pos ha] at ht
        exact ih [] (by simp) t ht
      · rw [if_neg ha] at ht
        rcases List.mem_cons.mp ht with rfl | ht
        · exact ⟨by simpa using ha, fun c hc => hacc c (List.mem_reverse.mp hc)⟩
        · exact ih [] (by simp) t ht
    · rw [if_neg hw] at ht
      refine ih (c0 :: acc) ?_ t ht
      intro c hc
      rcases List.mem_cons.mp hc with rfl | hc
      · simpa using hw
      · exact hacc c hc

theorem splitWhitespace_all (s : Str) :
    ∀ t ∈ splitWhitespace s, t ≠ [] ∧ ∀ c ∈ t, isWhitespaceChar c = false :=
  splitWSGo_all s [] (by simp)

theorem splitWSGo_append_word (t : Str) : ∀ (acc s : Str),
    (∀ c ∈ t, isWhitespaceChar c = false) →
    splitWSGo acc (t ++ s) = splitWSGo (t.reverse ++ acc) s := by
  induction t with
  | nil => intro acc s _; simp
  | cons c0 t2 ih =>
    intro acc s hn
    have hw : isWhitespaceChar c0 = false := hn c0 (List.mem_cons_self c0 t2)
    have h1 : (c0 :: t2) ++ s = c0 :: (t2 ++ s) := rfl
    have h2 : splitWSGo acc (c0 :: (t2 ++ s)) = splitWSGo (c0 :: acc) (t2 ++ s) := by
      simp [splitWSGo, hw]
    rw [h1, h2, ih (c0 :: acc) s (fun c hc => hn c (List.mem_cons_of_mem _ hc))]
    simp

theorem splitWhitespace_joinSpaces : ∀ (ts : List Str),
    (∀ t ∈ ts, t ≠ [] ∧ ∀ c ∈ t, isWhitespaceChar c = false) →
    splitWhitespace (joinSpaces ts) = ts := by
  intro ts
  induction ts with
  | nil => intro _; rfl
  | cons t rest ih =>
    intro h
    have hne := (h t (List.mem_cons_self t rest)).1
    have hnw := (h t (List.mem_cons_self t rest)).2
    cases rest with
    | nil =>
      have hj : joinSpaces [t] = t := rfl
      rw [splitWhitespace, hj]
      have he := splitWSGo_append_word t [] [] hnw
      rw [List.append_nil] at he
      rw [he]
      simp [splitWSGo, hne]
    | cons t2 rest2 =>
      have hj : joinSpaces (t :: t2 :: rest2) = t ++ 32 :: joinSpaces (t2 :: rest2) := rfl
      rw [splitWhitespace, hj, splitWSGo_append_word t [] _ hnw]
      have h3 : splitWSGo (t.reverse ++ []) (32 :: joinSpaces (t2 :: rest2)) =
          t.reverse.reverse :: splitWSGo [] (joinSpaces (t2 :: rest2)) := by
        rw [List.append_nil]
        simp only [splitWSGo]
        rw [if_pos (by simp [isWhitespaceChar]), if_neg (by simpa using hne)]
      rw [h3, List.reverse_reverse]
      have := ih (fun u hu => h u (List.mem_cons_of_mem _ hu))
      rw [splitWhitespace] at this
      rw [this]

theorem dropWhile_eq_self_of_head {α : Type} (p : α → Bool) (l : List α)
    (h : ∀ (w : l ≠ []), p (l.head w) = false) : l.dropWhile p = l := by
  cases l with
  | nil => rfl
  | cons a t =>
    have hh := h (by simp)
    simp only [List.head_cons] at hh
    exact List.dropWhile_cons_of_neg (by simp [hh])

theorem dropWhile_idem {α : Type} (p : α → Bool) (l : List α) :
    (l.dropWhile p).dropWhile p = l.dropWhile p := by
  apply dropWhile_eq_self_of_head
  intro w
  exact List.head_dropWhile_not p l w

theorem trim_core_fixed (p : Nat → Bool) (l : Str) :
    (((l.dropWhile p).reverse.dropWhile p).reverse).dropWhile p =
      ((l.dropWhile p).reverse.dropWhile p).reverse := by
  apply dropWhile_eq_self_of_head
  intro w
  have hBne : (l.dropWhile p).reverse.dropWhile p ≠ [] := by
    intro hh
    apply w
    rw [hh]
    rfl
  have hAne : l.dropWhile p ≠ [] := by
    intro hh
    apply hBne
    rw [hh]
    rfl
  have h1 : ((l.dropWhile p).reverse.dropWhile p).reverse.head w =
      ((l.dropWhile p).reverse.dropWhile p).getLast hBne := List.head_reverse w
  have h2 : ((l.dropWhile p).reverse.dropWhile p).getLast hBne =
      (l.dropWhile p).reverse.getLast (by simpa using hAne) :=
    (List.dropWhile_suffix p).getLast hBne
  have h3 : (l.dropWhile p).reverse.getLast (by simpa using hAne) =
      (l.dropWhile p).head hAne := List.getLast_reverse _
  rw [h1, h2, h3]
  exact List.head_dropWhile_not p l hAne

theorem trimNonAlnum_idem (u : Str) :
    trimNonAlnum (trimNonAlnum u) = trimNonAlnum u := by
  simp only [trimNonAlnum]
  rw [trim_core_fixed, List.reverse_reverse, trim_core_fixed]

theorem trimNonAlnum_map_toLower (l : Str) :
    trimNonAlnum (l.map toLowerChar) = (trimNonAlnum l).map toLowerChar := by
  have hfun : ((fun c => !isAlphanumericChar c) ∘ toLowerChar) =
      (fun c => !isAlphanumericChar c) := by
    funext c
    simp [Function.comp, isAlnum_toLowerChar]
  simp only [trimNonAlnum]
  rw [List.dropWhile_map, hfun, ← List.map_reverse, List.dropWhile_map, hfun,
    ← List.map_reverse]

theorem map_toLower_idem (l : Str) :
    (l.map toLowerChar).map toLowerChar = l.map toLowerChar := by
  rw [List.map_map,
    show toLowerChar ∘ toLowerChar = toLowerChar from funext toLowerChar_idem]

theorem mem_tokenize {text t : Str} (h : t ∈ tokenize text) :
    t ≠ [] ∧ ∃ u ∈ splitWhitespace text, t = (trimNonAlnum u).map toLowerChar := by
  simp only [tokenize, List.mem_filter, List.mem_map] at h
  obtain ⟨⟨u, hu, rfl⟩, hne⟩ := h
  exact ⟨by simpa using hne, u, hu, rfl⟩

theorem mem_trimNonAlnum {u : Str} {c : Nat} (h : c ∈ trimNonAlnum u) : c ∈ u := by
  simp only [trimNonAlnum, List.mem_reverse] at h
  have h2 := (List.dropWhile_sublist _).subset h
  rw [List.mem_reverse] at h2
  exact (List.dropWhile_sublist _).subset h2

theorem tokenize_no_ws {text t : Str} (h : t ∈ tokenize text) :
    ∀ c ∈ t, isWhitespaceChar c = false := by
  obtain ⟨-, u, hu, rfl⟩ := mem_tokenize h
  intro c hc
  rw [List.mem_map] at hc
  obtain ⟨c0, hc0, rfl⟩ := hc
  rw [isWs_toLowerChar]
  exact (splitWhitespace_all text u hu).2 c0 (mem_trimNonAlnum hc0)

theorem token_fixed {text t : Str} (h : t ∈ tokenize text) :
    (trimNonAlnum t).map toLowerChar = t := by
  obtain ⟨-, u, hu, rfl⟩ := mem_tokenize h
  rw [trimNonAlnum_map_toLower, trimNonAlnum_idem, map_toLower_idem]

theorem map_eq_self_of_fixed {α : Type} (f : α → α) :
    ∀ (l : List α), (∀ a ∈ l, f a = a) → l.map f = l := by
  intro l
  induction l with
  | nil => intro _; rfl
  | cons a t ih =>
    intro h
    rw [List.map_cons, h a (List.mem_cons_self a t),
      ih (fun x hx => h x (List.mem_cons_of_mem _ hx))]

theorem countOcc_pos {α : Type} [DecidableEq α] (a : α) :
    ∀ (l : List α), a ∈ l → 1 ≤ countOcc a l := by
  intro l
  induction l with
  | nil => simp
  | cons b t ih =>
    intro h
    rcases List.mem_cons.mp h with rfl | h
    · have he : countOcc a (a :: t) = 1 + countOcc a t := by simp [countOcc]
      omega
    · have := ih h
      simp only [countOcc]
      omega

theorem countOcc_adjPairs_le (w x : Str) :
    ∀ (l : List Str), countOcc (w, x) (adjPairs l) ≤ countOcc w l := by
  intro l
  induction l with
  | nil => simp [adjPairs, countOcc]
  | cons a t ih =>
    cases t with
    | nil => simp [adjPairs, countOcc]
    | cons b t2 =>
      have h1 : adjPairs (a :: b :: t2) = (a, b) :: adjPairs (b :: t2) := rfl
      rw [h1]
      have hind : (if (a, b) = (w, x) then 1 else 0) ≤
          (if a = w then (1 : Nat) else 0) := by
        by_cases hp : (a, b) = (w, x)
        · injection hp with ha hb
          subst ha
          subst hb
          simp
        · simp only [if_neg hp]
          exact Nat.zero_le _
      simp only [countOcc] at ih ⊢
      omega

theorem countBy_adjTriples_le (w : Str) :
    ∀ (l : List Str),
      countBy (fun t => decide (t.1 = w)) (adjTriples l) ≤ countOcc w l := by
  intro l
  induction l with
  | nil => simp [adjTriples, countBy, countOcc]
  | cons a t ih =>
    cases t with
    | nil => simp [adjTriples, countBy, countOcc]
    | cons b t2 =>
      cases t2 with
      | nil => simp [adjTriples, countBy, countOcc]
      | cons c t3 =>
        have h1 : adjTriples (a :: b :: c :: t3) =
            (a, b, c) :: adjTriples (b :: c :: t3) := rfl
        rw [h1]
        simp only [countBy, countOcc, decide_eq_true_eq] at ih ⊢
        omega

theorem getLast?_isSome_of_ne_nil {α : Type} (l : List α) (h : l ≠ []) :
    ∃ a, l.getLast? = some a :=
  ⟨l.getLast h, List.getLast?_eq_getLast l h⟩

theorem get?_isSome_of_lt {α : Type} (l : List α) (n : Nat)
    (h : n < l.length) : ∃ a, l.get? n = some a :=
  ⟨l.get ⟨n, h⟩, List.get?_eq_get h⟩

theorem sortByValDesc_cases {α β : Type} [LinearOrder β]
    (l : List (α × β)) (d : α × β) :
    (l = [] ∧ (sortByValDesc l).headD d = d) ∨
      ∃ c t, sortByValDesc l = c :: t ∧ (sortByValDesc l).headD d = c ∧
        c ∈ l ∧ ∀ y ∈ l, y.2 ≤ c.2 := by
  cases hs : sortByValDesc l with
  | nil =>
    left
    exact ⟨(sortByValDesc_eq_nil l).mp hs, rfl⟩
  | cons c t =>
    right
    obtain ⟨hc, hmax⟩ := sortByValDesc_head_max hs
    exact ⟨c, t, rfl, by rfl, hc, hmax⟩

theorem train_unigram_keys_nodup (text : Str) :
    (tableKeys (train text).unigram).Nodup := by
  rw [train_unigram_eq]
  exact nodup_tableKeys_buildTable _

theorem mem_train_unigram_keys (text w : Str) :
    w ∈ tableKeys (train text).unigram ↔ w ∈ tokenize text := by
  rw [train_unigram_eq]
  exact mem_tableKeys_buildTable _ w

theorem train_unigram_keys_nonempty_tok {text w : Str}
    (h : w ∈ tableKeys (train text).unigram) : w ≠ [] :=
  (mem_tokenize ((mem_train_unigram_keys text w).mp h)).1

theorem suggest_unigram_eq (m : NGramModel) (input : Str) :
    suggest_unigram m input =
      (sortByValDesc (m.unigram.filter fun e =>
        ((splitWhitespace (input.map toLowerChar)).getLastD []).isPrefixOf e.1)).headD
        ([], 0) := rfl

theorem suggest_unigram_spec (m : NGramModel) (input : Str)
    (hnd : (tableKeys m.unigram).Nodup) :
    ((∃ w, w ∈ tableKeys m.unigram ∧
        ((splitWhitespace (input.map toLowerChar)).getLastD []).isPrefixOf w = true) →
      ∃ w, suggest_unigram m input = (w, lookupCount m.unigram w) ∧
        w ∈ tableKeys m.unigram ∧
        ((splitWhitespace (input.map toLowerChar)).getLastD []).isPrefixOf w = true ∧
        ∀ v ∈ tableKeys m.unigram,
          ((splitWhitespace (input.map toLowerChar)).getLastD []).isPrefixOf v = true →
            lookupCount m.unigram v ≤ lookupCount m.unigram w) ∧
    ((¬ ∃ w, w ∈ tableKeys m.unigram ∧
        ((splitWhitespace (input.map toLowerChar)).getLastD []).isPrefixOf w = true) →
      suggest_unigram m input = ([], 0)) := by
  constructor
  · rintro ⟨w, hwk, hwp⟩
    have hentry : (w, lookupCount m.unigram w) ∈
        m.unigram.filter (fun e =>
          ((splitWhitespace (input.map toLowerChar)).getLastD []).isPrefixOf e.1) := by
      rw [List.mem_filter]
      exact ⟨mem_of_mem_tableKeys m.unigram w hwk, by simpa using hwp⟩
    rcases sortByValDesc_cases
        (m.unigram.filter fun e =>
          ((splitWhitespace (input.map toLowerChar)).getLastD []).isPrefixOf e.1)
        ([], 0) with ⟨hnil, -⟩ | ⟨c, t, hs, hhead, hcmem, hmax⟩
    · rw [hnil] at hentry
      simp at hentry
    · rw [List.mem_filter] at hcmem
      obtain ⟨hcm, hcp⟩ := hcmem
      have hlc : lookupCount m.unigram c.1 = c.2 :=
        lookupCount_eq_of_mem m.unigram hnd c.1 c.2 (by simpa using hcm)
      refine ⟨c.1, ?_, mem_tableKeys_of_mem (by simpa using hcm), by simpa using hcp, ?_⟩
      · rw [suggest_unigram_eq, hhead, hlc]
      · intro v hv hvp
        have hv2 : (v, lookupCount m.unigram v) ∈
            m.unigram.filter (fun e =>
              ((splitWhitespace (input.map toLowerChar)).getLastD []).isPrefixOf e.1) := by
          rw [List.mem_filter]
          exact ⟨mem_of_mem_tableKeys m.unigram v hv, by simpa using hvp⟩
        have := hmax (v, lookupCount m.unigram v) hv2
        simpa [hlc] using this
  · intro hno
    have hfil : m.unigram.filter (fun e =>
        ((splitWhitespace (input.map toLowerChar)).getLastD []).isPrefixOf e.1) = [] := by
      apply List.filter_eq_nil.mpr
      intro e he hp
      exact hno ⟨e.1, mem_tableKeys_of_mem (show (e.1, e.2) ∈ m.unigram by simpa using he),
        by simpa using hp⟩
    rw [suggest_unigram_eq, hfil]
    rfl

theorem suggest_unigram_empty_model (m : NGramModel) (h : m.unigram = [])
    (input : Str) : suggest_unigram m input = ([], 0) := by
  rw [suggest_unigram_eq, h]
  rfl

theorem suggest_bigram_empty_model (m : NGramModel) (h : m.unigram = [])
    (input : Str) : suggest_bigram m input = ([], 0) := by
  simp only [suggest_bigram, h]
  by_cases hl : (tokenize input).length < 1
  · rw [if_pos hl]
  · rw [if_neg hl]
    rfl

theorem suggest_trigram_empty_model (m : NGramModel) (h : m.trigram = [])
    (input : Str) : suggest_trigram m input = ([], 0) := by
  simp only [suggest_trigram, h]
  by_cases hl : (tokenize input).length < 2
  · rw [if_pos hl]
  · rw [if_neg hl]
    rfl

/-- C1: for every input text, `train` produces a model whose unigram table
counts each token's occurrences in `tokenize text`, whose bigram table
counts each ordered adjacent pair, whose trigram table counts each ordered
adjacent triple, and whose `vocab_count` is the number of distinct unigram
keys; in particular training on "the cat sat on the mat" gives
`unigram["the"] = 2`, `bigram[("the","cat")] = 1` and
`trigram[("the","cat","sat")] = 1`. -/
theorem C1_train_counts (text : Str) :
    (∀ w, lookupCount (train text).unigram w = countOcc w (tokenize text)) ∧
    (∀ ab, lookupCount (train text).bigram ab =
      countOcc ab (adjPairs (tokenize text))) ∧
    (∀ abc, lookupCount (train text).trigram abc =
      countOcc abc (adjTriples (tokenize text))) ∧
    (train text).vocab_count =
      ((train text).unigram.map Prod.fst).dedup.length ∧
    lookupCount (train (str "the cat sat on the mat")).unigram (str "the") = 2 ∧
    lookupCount (train (str "the cat sat on the mat")).bigram
      (str "the", str "cat") = 1 ∧
    lookupCount (train (str "the cat sat on the mat")).trigram
      (str "the", str "cat", str "sat") = 1 := by
  refine ⟨?_, ?_, ?_, ?_, by decide, by decide, by decide⟩
  · intro w
    rw [train_unigram_eq, lookupCount_buildTable]
  · intro ab
    rw [train_bigram_eq, lookupCount_buildTable]
  · intro abc
    rw [train_trigram_eq, lookupCount_buildTable]
  · have hnd : ((train text).unigram.map Prod.fst).Nodup := by
      rw [show (train text).unigram.map Prod.fst = tableKeys (train text).unigram
        from rfl, train_unigram_eq]
      exact nodup_tableKeys_buildTable _
    rw [List.dedup_eq_self.mpr hnd, train_vocab_eq, train_unigram_eq]
    rfl

/-- C2: for every trained model and input, `suggest_unigram` takes the last
whitespace fragment of the lowercased input as prefix; if some vocabulary
word starts with it, the result is a matching word of maximal unigram count
paired with its unigram count, otherwise the result is `("", 0)`. -/
theorem C2_suggest_unigram_correct (text input : Str) :
    ((∃ w, w ∈ tableKeys (train text).unigram ∧
        ((splitWhitespace (input.map toLowerChar)).getLastD []).isPrefixOf w = true) →
      ∃ w, suggest_unigram (train text) input =
          (w, lookupCount (train text).unigram w) ∧
        w ∈ tableKeys (train text).unigram ∧
        ((splitWhitespace (input.map toLowerChar)).getLastD []).isPrefixOf w = true ∧
        ∀ v ∈ tableKeys (train text).unigram,
          ((splitWhitespace (input.map toLowerChar)).getLastD []).isPrefixOf v = true →
            lookupCount (train text).unigram v ≤
              lookupCount (train text).unigram w) ∧
    ((¬ ∃ w, w ∈ tableKeys (train text).unigram ∧
        ((splitWhitespace (input.map toLowerChar)).getLastD []).isPrefixOf w = true) →
      suggest_unigram (train text) input = ([], 0)) :=
  suggest_unigram_spec (train text) input (train_unigram_keys_nodup text)

/-- Witness for C2: on the model trained from "cat car cart dog" with input
"ca" some matching word of maximal count is returned; on the model trained
from "cat car" with input "zz" the sentinel is returned. -/
theorem C2_suggest_unigram_correct_witness :
    (∃ w, suggest_unigram (train (str "cat car cart dog")) (str "ca") =
        (w, lookupCount (train (str "cat car cart dog")).unigram w) ∧
      w ∈ tableKeys (train (str "cat car cart dog")).unigram ∧
      ((splitWhitespace ((str "ca").map toLowerChar)).getLastD []).isPrefixOf w = true ∧
      ∀ v ∈ tableKeys (train (str "cat car cart dog")).unigram,
        ((splitWhitespace ((str "ca").map toLowerChar)).getLastD []).isPrefixOf v = true →
          lookupCount (train (str "cat car cart dog")).unigram v ≤
            lookupCount (train (str "cat car cart dog")).unigram w) ∧
    suggest_unigram (train (str "cat car")) (str "zz") = ([], 0) :=
  ⟨(C2_suggest_unigram_correct (str "cat car cart dog") (str "ca")).1
      ⟨str "cat", by decide, by decide⟩,
    (C2_suggest_unigram_correct (str "cat car") (str "zz")).2 (by decide)⟩

/-- C3: once the input tokenizes to at least one token, the result of
`suggest_bigram` does not depend on the input at all. -/
theorem C3_bigram_input_independent (m : NGramModel) (s1 s2 : Str)
    (h1 : tokenize s1 ≠ []) (h2 : tokenize s2 ≠ []) :
    suggest_bigram m s1 = suggest_bigram m s2 := by
  simp only [suggest_bigram]
  rw [if_neg (by rw [Nat.lt_one_iff, List.length_eq_zero]; exact h1),
    if_neg (by rw [Nat.lt_one_iff, List.length_eq_zero]; exact h2)]

/-- Witness for C3: two different non-empty inputs give the same result. -/
theorem C3_bigram_input_independent_witness :
    suggest_bigram (train (str "a b")) (str "hello") =
      suggest_bigram (train (str "a b")) (str "world") :=
  C3_bigram_input_independent (train (str "a b")) (str "hello") (str "world")
    (by decide) (by decide)

/-- C4: with a non-empty vocabulary and an input with at least one token,
`suggest_bigram` returns a vocabulary word whose aggregated Laplace score is
maximal, paired with that score times 1000 truncated to an integer. -/
theorem C4_suggest_bigram_argmax (text input : Str)
    (hv : (train text).unigram ≠ []) (hi : tokenize input ≠ []) :
    ∃ w, w ∈ tableKeys (train text).unigram ∧
      suggest_bigram (train text) input =
        (w, (smooth_with_laplace (train text) w * 1000).floor.toNat) ∧
      ∀ v ∈ tableKeys (train text).unigram,
        smooth_with_laplace (train text) v ≤ smooth_with_laplace (train text) w := by
  have hkeys : tableKeys (train text).unigram ≠ [] := by
    intro hh
    apply hv
    simpa [tableKeys] using hh
  cases hs : sortByValDesc ((tableKeys (train text).unigram).map
      fun word => (word, smooth_with_laplace (train text) word)) with
  | nil =>
    exfalso
    have hmapnil := (sortByValDesc_eq_nil _).mp hs
    rw [List.map_eq_nil] at hmapnil
    exact hkeys hmapnil
  | cons c t =>
    obtain ⟨hcmem, hmax⟩ := sortByValDesc_head_max hs
    rw [List.mem_map] at hcmem
    obtain ⟨w, hw, hcw⟩ := hcmem
    refine ⟨w, hw, ?_, ?_⟩
    · simp only [suggest_bigram]
      rw [if_neg (by rw [Nat.lt_one_iff, List.length_eq_zero]; exact hi), hs, ← hcw]
      rfl
    · intro v hv2
      have hvmem : (v, smooth_with_laplace (train text) v) ∈
          (tableKeys (train text).unigram).map
            (fun word => (word, smooth_with_laplace (train text) word)) :=
        List.mem_map.mpr ⟨v, hv2, rfl⟩
      have h3 := hmax _ hvmem
      rw [← hcw] at h3
      exact h3

/-- Witness for C4. -/
theorem C4_suggest_bigram_argmax_witness :
    ∃ w, w ∈ tableKeys (train (str "a b")).unigram ∧
      suggest_bigram (train (str "a b")) (str "x") =
        (w, (smooth_with_laplace (train (str "a b")) w * 1000).floor.toNat) ∧
      ∀ v ∈ tableKeys (train (str "a b")).unigram,
        smooth_with_laplace (train (str "a b")) v ≤
          smooth_with_laplace (train (str "a b")) w :=
  C4_suggest_bigram_argmax (str "a b") (str "x") (by decide) (by decide)

/-- C5: with at least two input tokens, `suggest_trigram` considers exactly
the trigram entries whose first component is the second-to-last input token
and whose second component is the last input token, and returns a third
component of maximal count among them (or `("", 0)` if none match); in
particular, training on "i like big data" and input "i like big" give
`("data", 1)`. -/
theorem C5_suggest_trigram_correct (text input : Str)
    (h : 2 ≤ (tokenize input).length) :
    (((train text).trigram.filter fun e =>
        decide (e.1.1 = (tokenize input).getD ((tokenize input).length - 2) []) &&
          decide (e.1.2.1 = (tokenize input).getD ((tokenize input).length - 1) [])) = [] →
      suggest_trigram (train text) input = ([], 0)) ∧
    (((train text).trigram.filter fun e =>
        decide (e.1.1 = (tokenize input).getD ((tokenize input).length - 2) []) &&
          decide (e.1.2.1 = (tokenize input).getD ((tokenize input).length - 1) [])) ≠ [] →
      ∃ c n, suggest_trigram (train text) input = (c, n) ∧
        (((tokenize input).getD ((tokenize input).length - 2) [],
          (tokenize input).getD ((tokenize input).length - 1) [], c), n) ∈
            (train text).trigram ∧
        ∀ e ∈ (train text).trigram,
          e.1.1 = (tokenize input).getD ((tokenize input).length - 2) [] →
          e.1.2.1 = (tokenize input).getD ((tokenize input).length - 1) [] →
            e.2 ≤ n) ∧
    suggest_trigram (train (str "i like big data")) (str "i like big") =
      (str "data", 1) := by
  have hguard : ¬ (tokenize input).length < 2 := by omega
  refine ⟨?_, ?_, by decide⟩
  · intro hfil
    simp only [suggest_trigram]
    rw [if_neg hguard, hfil]
    rfl
  · intro hfil
    rcases sortByValDesc_cases
        (((train text).trigram.filter fun e =>
          decide (e.1.1 = (tokenize input).getD ((tokenize input).length - 2) []) &&
            decide (e.1.2.1 = (tokenize input).getD ((tokenize input).length - 1) [])).map
          fun e => (e.1.2.2, e.2)) (([], 0) : Str × Nat) with
      ⟨hnil, -⟩ | ⟨c, t, hs, hhead, hcmem, hmax⟩
    · exfalso
      rw [List.map_eq_nil] at hnil
      exact hfil hnil
    · rw [List.mem_map] at hcmem
      obtain ⟨e, he, hec⟩ := hcmem
      rw [List.mem_filter] at he
      obtain ⟨hetri, hecond⟩ := he
      simp only [Bool.and_eq_true, decide_eq_true_eq] at hecond
      have h1 : c.1 = e.1.2.2 := by rw [← hec]
      have h2 : c.2 = e.2 := by rw [← hec]
      refine ⟨c.1, c.2, ?_, ?_, ?_⟩
      · simp only [suggest_trigram]
        rw [if_neg hguard, hhead]
      · rw [h1, h2, ← hecond.1, ← hecond.2]
        simpa using hetri
      · intro e2 he2 hc1 hc2
        have he2mem : (e2.1.2.2, e2.2) ∈
            (((train text).trigram.filter fun e =>
              decide (e.1.1 = (tokenize input).getD ((tokenize input).length - 2) []) &&
                decide (e.1.2.1 = (tokenize input).getD ((tokenize input).length - 1) [])).map
              fun e => (e.1.2.2, e.2)) := by
          rw [List.mem_map]
          refine ⟨e2, ?_, rfl⟩
          rw [List.mem_filter]
          exact ⟨he2, by simp [hc1, hc2]⟩
        have h3 := hmax _ he2mem
        exact h3

/-- Witness for C5. -/
theorem C5_suggest_trigram_correct_witness :
    ∃ c n, suggest_trigram (train (str "i like big data")) (str "i like big") =
        (c, n) ∧
      (((tokenize (str "i like big")).getD ((tokenize (str "i like big")).length - 2) [],
        (tokenize (str "i like big")).getD ((tokenize (str "i like big")).length - 1) [], c), n) ∈
          (train (str "i like big data")).trigram ∧
      ∀ e ∈ (train (str "i like big data")).trigram,
        e.1.1 = (tokenize (str "i like big")).getD ((tokenize (str "i like big")).length - 2) [] →
        e.1.2.1 = (tokenize (str "i like big")).getD ((tokenize (str "i like big")).length - 1) [] →
          e.2 ≤ n :=
  (C5_suggest_trigram_correct (str "i like big data") (str "i like big")
      (by decide)).2.1 (by decide)

/-- C6: training on the empty string gives empty tables and zero vocabulary,
and every suggester returns the sentinel `("", 0)` on such a model, for
every input. -/
theorem C6_empty_training (input : Str) :
    (train (str "")).unigram = [] ∧ (train (str "")).bigram = [] ∧
    (train (str "")).trigram = [] ∧ (train (str "")).vocab_count = 0 ∧
    suggest_unigram (train (str "")) input = ([], 0) ∧
    suggest_bigram (train (str "")) input = ([], 0) ∧
    suggest_trigram (train (str "")) input = ([], 0) :=
  ⟨by decide, by decide, by decide, by decide,
    suggest_unigram_empty_model _ (by decide) input,
    suggest_bigram_empty_model _ (by decide) input,
    suggest_trigram_empty_model _ (by decide) input⟩

/-- C7: in every trained model, each bigram count `(w, x)` is at most the
unigram count of `w`, and the trigram counts of entries beginning with `w`
sum to at most the unigram count of `w`. -/
theorem C7_count_invariants (text : Str) :
    (∀ w x, lookupCount (train text).bigram (w, x) ≤
      lookupCount (train text).unigram w) ∧
    (∀ w, sumValuesP (fun k => decide (k.1 = w)) (train text).trigram ≤
      lookupCount (train text).unigram w) := by
  constructor
  · intro w x
    rw [train_bigram_eq, train_unigram_eq, lookupCount_buildTable,
      lookupCount_buildTable]
    exact countOcc_adjPairs_le w x (tokenize text)
  · intro w
    rw [train_trigram_eq, train_unigram_eq, sumValuesP_buildTable,
      lookupCount_buildTable]
    exact countBy_adjTriples_le w (tokenize text)

/-- Idempotence of the ASCII-fragment tokenizer `tokenize` (whose lowercase
mapping is one-to-one): rejoining its tokens with single spaces and
tokenizing again yields the same token sequence. -/
theorem tokenize_idempotent_ascii_model (text : Str) :
    tokenize (joinSpaces (tokenize text)) = tokenize text := by
  have hsplit : splitWhitespace (joinSpaces (tokenize text)) = tokenize text :=
    splitWhitespace_joinSpaces (tokenize text)
      (fun t ht => ⟨(mem_tokenize ht).1, tokenize_no_ws ht⟩)
  show ((splitWhitespace (joinSpaces (tokenize text))).map
      fun t => (trimNonAlnum t).map toLowerChar).filter (fun t => !t.isEmpty) =
    tokenize text
  rw [hsplit, map_eq_self_of_fixed _ _ (fun t ht => token_fixed ht)]
  apply List.filter_eq_self.mpr
  intro t ht
  simpa using (mem_tokenize ht).1

/-- C9: the embedded operations are total; in particular the `unwrap` of the
last input token in `suggest_bigram` and the two index accesses in
`suggest_trigram` never panic (the checked variants always return `some` of
the total result), and the Laplace denominator `unigram(w) + vocab_count`
is positive for every word the vocabulary loop visits in a trained model. -/
theorem C9_total_no_panics :
    (∀ (m : NGramModel) (input : Str),
      suggest_bigramChk m input = some (suggest_bigram m input)) ∧
    (∀ (m : NGramModel) (input : Str),
      suggest_trigramChk m input = some (suggest_trigram m input)) ∧
    (∀ (text w : Str), w ∈ tableKeys (train text).unigram →
      0 < lookupCount (train text).unigram w + (train text).vocab_count) := by
  refine ⟨?_, ?_, ?_⟩
  · intro m input
    simp only [suggest_bigram, suggest_bigramChk]
    by_cases hl : (tokenize input).length < 1
    · rw [if_pos hl, if_pos hl]
    · rw [if_neg hl, if_neg hl]
      have hne : tokenize input ≠ [] := by
        intro hh
        rw [hh] at hl
        simp at hl
      obtain ⟨a, ha⟩ := getLast?_isSome_of_ne_nil (tokenize input) hne
      rw [ha]
  · intro m input
    simp only [suggest_trigram, suggest_trigramChk]
    by_cases hl : (tokenize input).length < 2
    · rw [if_pos hl, if_pos hl]
    · rw [if_neg hl, if_neg hl]
      have h1 : (tokenize input).length - 1 < (tokenize input).length := by omega
      have h2 : (tokenize input).length - 2 < (tokenize input).length := by omega
      rw [List.get?_eq_get h1, List.get?_eq_get h2,
        List.getD_eq_get _ _ h1, List.getD_eq_get _ _ h2]
  · intro text w hw
    have h1 : (train text).vocab_count =
        (tableKeys (train text).unigram).length := by
      rw [train_vocab_eq, train_unigram_eq]
    have h2 : 0 < (tableKeys (train text).unigram).length :=
      List.length_pos.mpr (by intro hh; rw [hh] at hw; simp at hw)
    omega

/-- Witness for C9: the denominator positivity at a concrete trained model. -/
theorem C9_total_no_panics_witness :
    str "a" ∈ tableKeys (train (str "a b")).unigram ∧
    0 < lookupCount (train (str "a b")).unigram (str "a") +
      (train (str "a b")).vocab_count :=
  ⟨by decide, C9_total_no_panics.2.2 (str "a b") (str "a") (by decide)⟩

/-- C10: `suggest_unigram` on a trained model returns the sentinel
`("", 0)` exactly when no vocabulary word starts with the derived prefix;
when a match exists the returned word is non-empty and its count at least
1, so the sentinel is unambiguous. -/
theorem C10_sentinel_unambiguous (text input : Str) :
    (suggest_unigram (train text) input = ([], 0) ↔
      ¬ ∃ w, w ∈ tableKeys (train text).unigram ∧
        ((splitWhitespace (input.map toLowerChar)).getLastD []).isPrefixOf w = true) ∧
    ((∃ w, w ∈ tableKeys (train text).unigram ∧
        ((splitWhitespace (input.map toLowerChar)).getLastD []).isPrefixOf w = true) →
      (suggest_unigram (train text) input).1 ≠ [] ∧
        1 ≤ (suggest_unigram (train text) input).2) := by
  have hspec := suggest_unigram_spec (train text) input (train_unigram_keys_nodup text)
  constructor
  · constructor
    · intro hres hex
      obtain ⟨w, hw1, hw2, hw3, -⟩ := hspec.1 hex
      rw [hres] at hw1
      have hwe : w = [] := by
        have := congrArg Prod.fst hw1
        exact this.symm
      exact train_unigram_keys_nonempty_tok hw2 hwe
    · exact hspec.2
  · intro hex
    obtain ⟨w, hw1, hw2, hw3, -⟩ := hspec.1 hex
    rw [hw1]
    refine ⟨train_unigram_keys_nonempty_tok hw2, ?_⟩
    have hwtok : w ∈ tokenize text := (mem_train_unigram_keys text w).mp hw2
    have := countOcc_pos w (tokenize text) hwtok
    have hlook : lookupCount (train text).unigram w = countOcc w (tokenize text) := by
      rw [train_unigram_eq, lookupCount_buildTable]
    simp only [hlook]
    omega

/-- Witness for C10. -/
theorem C10_sentinel_unambiguous_witness :
    suggest_unigram (train (str "cat car")) (str "zz") = ([], 0) ∧
    ((suggest_unigram (train (str "cat car")) (str "ca")).1 ≠ [] ∧
      1 ≤ (suggest_unigram (train (str "cat car")) (str "ca")).2) :=
  ⟨(C10_sentinel_unambiguous (str "cat car") (str "zz")).1.mpr (by decide),
    (C10_sentinel_unambiguous (str "cat car") (str "ca")).2
      ⟨str "cat", by decide, by decide⟩⟩

theorem dropWhile_congr_mem {α : Type} (p q : α → Bool) :
    ∀ (l : List α), (∀ a ∈ l, p a = q a) → l.dropWhile p = l.dropWhile q := by
  intro l
  induction l with
  | nil => intro _; rfl
  | cons a t ih =>
    intro h
    rw [List.dropWhile_cons, List.dropWhile_cons, h a (List.mem_cons_self a t)]
    split
    · exact ih (fun x hx => h x (List.mem_cons_of_mem _ hx))
    · rfl

theorem flatMap_eq_map_of_singleton {α β : Type} (f : α → List β)
    (g : α → β) : ∀ (l : List α), (∀ a ∈ l, f a = [g a]) →
      l.flatMap f = l.map g := by
  intro l
  induction l with
  | nil => intro _; rfl
  | cons a t ih =>
    intro h
    rw [List.flatMap_cons, h a (List.mem_cons_self a t), List.map_cons,
      ih (fun x hx => h x (List.mem_cons_of_mem _ hx))]
    rfl

theorem splitWSGo_chars (s : Str) : ∀ (acc : Str) (t : Str),
    t ∈ splitWSGo acc s → ∀ c ∈ t, c ∈ acc ∨ c ∈ s := by
  induction s with
  | nil =>
    intro acc t ht c hc
    simp only [splitWSGo] at ht
    split at ht
    · simp at ht
    · simp only [List.mem_singleton] at ht
      subst ht
      exact Or.inl (List.mem_reverse.mp hc)
  | cons c0 rest ih =>
    intro acc t ht c hc
    simp only [splitWSGo] at ht
    by_cases hw : isWhitespaceChar c0
    · rw [if_pos hw] at ht
      by_cases ha : acc = []
      · rw [if_pos ha] at ht
        rcases ih [] t ht c hc with h | h
        · simp at h
        · exact Or.inr (List.mem_cons_of_mem _ h)
      · rw [if_neg ha] at ht
        rcases List.mem_cons.mp ht with rfl | ht
        · exact Or.inl (List.mem_reverse.mp hc)
        · rcases ih [] t ht c hc with h | h
          · simp at h
          · exact Or.inr (List.mem_cons_of_mem _ h)
    · rw [if_neg hw] at ht
      rcases ih (c0 :: acc) t ht c hc with h | h
      · rcases List.mem_cons.mp h with rfl | h
        · exact Or.inr (List.mem_cons_self c rest)
        · exact Or.inl h
      · exact Or.inr (List.mem_cons_of_mem _ h)

theorem splitWhitespace_chars {s u : Str} (hu : u ∈ splitWhitespace s) :
    ∀ c ∈ u, c ∈ s := by
  intro c hc
  rcases splitWSGo_chars s [] u hu c hc with h | h
  · simp at h
  · exact h

theorem mem_joinSpaces {c : Nat} : ∀ (ts : List Str), c ∈ joinSpaces ts →
    c = 32 ∨ ∃ t ∈ ts, c ∈ t := by
  intro ts
  induction ts with
  | nil => intro h; simp [joinSpaces] at h
  | cons t rest ih =>
    intro h
    cases rest with
    | nil =>
      right
      exact ⟨t, List.mem_cons_self t [], by simpa [joinSpaces] using h⟩
    | cons t2 rest2 =>
      rw [show joinSpaces (t :: t2 :: rest2) =
        t ++ 32 :: joinSpaces (t2 :: rest2) from rfl] at h
      rcases List.mem_append.mp h with h | h
      · exact Or.inr ⟨t, List.mem_cons_self t (t2 :: rest2), h⟩
      · rcases List.mem_cons.mp h with rfl | h
        · exact Or.inl rfl
        · rcases ih h with h | ⟨u, hu, hc⟩
          · exact Or.inl h
          · exact Or.inr ⟨u, List.mem_cons_of_mem _ hu, hc⟩

theorem toLowerChar_lt_128 {c : Nat} (h : c < 128) : toLowerChar c < 128 := by
  simp only [toLowerChar]
  split
  · rename_i hcond
    simp only [Bool.and_eq_true, decide_eq_true_eq] at hcond
    omega
  · exact h

theorem toLowerCharU_ascii {c : Nat} (h : c < 128) :
    toLowerCharU c = [toLowerChar c] := by
  simp only [toLowerCharU]
  rw [if_neg (by omega)]

theorem isAlnumU_ascii {c : Nat} (h : c < 128) :
    isAlphanumericCharU c = isAlphanumericChar c := by
  simp only [isAlphanumericCharU,
    decide_eq_false (show ¬ c = 304 by omega), Bool.or_false]

theorem trimNonAlnumU_ascii {t : Str} (h : ∀ c ∈ t, c < 128) :
    trimNonAlnumU t = trimNonAlnum t := by
  simp only [trimNonAlnumU, trimNonAlnum]
  rw [dropWhile_congr_mem _ _ t (fun a ha => by rw [isAlnumU_ascii (h a ha)])]
  rw [dropWhile_congr_mem _ _ _ (fun a ha => by
    rw [isAlnumU_ascii
      (h a ((List.dropWhile_sublist _).subset (List.mem_reverse.mp ha)))])]

theorem tokenizeU_ascii {text : Str} (h : ∀ c ∈ text, c < 128) :
    tokenizeU text = tokenize text := by
  simp only [tokenizeU, tokenize]
  congr 1
  apply List.map_congr_left
  intro u hu
  have hua : ∀ c ∈ u, c < 128 := fun c hc => h c (splitWhitespace_chars hu c hc)
  rw [trimNonAlnumU_ascii hua]
  apply flatMap_eq_map_of_singleton
  intro a ha
  exact toLowerCharU_ascii (hua a (mem_trimNonAlnum ha))

theorem tokenize_ascii_chars {text : Str} (h : ∀ c ∈ text, c < 128) :
    ∀ t ∈ tokenize text, ∀ c ∈ t, c < 128 := by
  intro t ht c hc
  obtain ⟨-, u, hu, rfl⟩ := mem_tokenize ht
  rw [List.mem_map] at hc
  obtain ⟨c0, hc0, rfl⟩ := hc
  exact toLowerChar_lt_128
    (h c0 (splitWhitespace_chars hu c0 (mem_trimNonAlnum hc0)))

theorem joinSpaces_ascii {ts : List Str} (h : ∀ t ∈ ts, ∀ c ∈ t, c < 128) :
    ∀ c ∈ joinSpaces ts, c < 128 := by
  intro c hc
  rcases mem_joinSpaces ts hc with rfl | ⟨t, ht, hct⟩
  · omega
  · exact h t ht c hct

/-- C8 counterexample: over the extended model with the faithful
one-to-many lowercase mapping, tokenization is not idempotent at the input
"İ" (U+0130): its token is "i" followed by COMBINING DOT ABOVE (U+0307),
and tokenizing the rejoined tokens trims that non-alphanumeric combining
mark, yielding the different token "i". -/
theorem C8_claim_counterexample :
    tokenizeU (joinSpaces (tokenizeU (str "İ"))) ≠ tokenizeU (str "İ") := by
  decide

/-- C8 (amended): for every input text of ASCII characters (code points
below 128) tokenization is idempotent — joining the tokens with single
spaces and tokenizing the result yields exactly the same token sequence.
For general Unicode input this fails, because `str::to_lowercase` is
one-to-many (see the counterexample at U+0130). -/
theorem C8_tokenize_idempotent_ascii (text : Str)
    (h : ∀ c ∈ text, c < 128) :
    tokenizeU (joinSpaces (tokenizeU text)) = tokenizeU text := by
  rw [tokenizeU_ascii h]
  have hjoin : ∀ c ∈ joinSpaces (tokenize text), c < 128 :=
    joinSpaces_ascii (fun t ht => tokenize_ascii_chars h t ht)
  rw [tokenizeU_ascii hjoin]
  exact tokenize_idempotent_ascii_model text

/-- Witness for C8 (amended): idempotence at a concrete ASCII input. -/
theorem C8_tokenize_idempotent_ascii_witness :
    tokenizeU (joinSpaces (tokenizeU (str "The cat, sat!!"))) =
      tokenizeU (str "The cat, sat!!") :=
  C8_tokenize_idempotent_ascii (str "The cat, sat!!") (by decide)
